import Mathlib

/-!
# Verification of the evaluation and spatial-reconstruction core

Shallow embedding of the two components with design content in this
repository:

* the spatial classification-map reconstruction loop of
  `run_inference` in `generate_maps.py` (lines 56-76), and
* the metric computations of `HSIEvaluation` in `utils/evaluation.py`.

Python/numpy semantics are embedded explicitly: 2-D numpy arrays become
lists of rows, numpy integer indexing (including wrapping of negative
indices and `IndexError` on out-of-range indices) is modelled by
`npResolve`, a raised exception is an `Except.error` carrying the state
at the moment of the raise, Python `dict` insertion order and
key-overwrite behaviour are modelled by `dinsert`, and floating-point
results are modelled by rationals with `Option` (`none` = NaN) where
numpy produces NaN.
-/

namespace Spec2Proof

/-- A pixel position `(row, col)`; coordinates are integers because numpy
accepts (and wraps) negative indices. -/
abbrev Pos := ℤ × ℤ

/-- One entry of an index map: a local sample index paired with its pixel
position, as in `data_loader.index2pos_train[0].items()`. -/
abbrev Entry := ℕ × Pos

/-- The two output arrays of the reconstruction, `pred_map` and `gt_map`
(`np.zeros(original_shape, dtype=np.int32)` filled in by the loop). -/
structure RState where
  predMap : List (List ℤ)
  gtMap : List (List ℤ)
deriving DecidableEq, Repr

/-- `np.zeros((hh, ww))` as a list of rows. -/
def zeroMap (hh ww : ℕ) : List (List ℤ) :=
  List.replicate hh (List.replicate ww 0)

/-- numpy index resolution on an axis of size `n`: an index `i` with
`-n ≤ i < n` resolves (negative values wrap to `i + n`); anything else
raises `IndexError` (`none`). -/
def npResolve (n : ℕ) (i : ℤ) : Option ℕ :=
  if 0 ≤ i then (if i < (n : ℤ) then some i.toNat else none)
  else (if -(n : ℤ) ≤ i then some (i + (n : ℤ)).toNat else none)

/-- Write value `v` at already-resolved row `r`, column `c` of a map. -/
def setCell (m : List (List ℤ)) (r c : ℕ) (v : ℤ) : List (List ℤ) :=
  m.set r ((m.getD r []).set c v)

/-- Read the cell at row `r`, column `c` (0 outside the stored lists). -/
def getCell (m : List (List ℤ)) (r c : ℕ) : ℤ :=
  (m.getD r []).getD c 0

/-- Python `dict` assignment `d[k] = v`: an existing key keeps its
position in insertion order and gets the new value; a new key is
appended. -/
def dinsert (k : ℕ) (v : Pos) (d : List Entry) : List Entry :=
  if d.any (fun e => e.1 == k) then
    d.map (fun e => if e.1 = k then (k, v) else e)
  else d ++ [(k, v)]

/-- Insert every entry of `l` into dictionary `d`, in order. -/
def dextend (d : List Entry) (l : List Entry) : List Entry :=
  l.foldl (fun d e => dinsert e.1 e.2 d) d

/-- `offset = len(data_loader.index2pos_train[0])`: the number of
entries of the training index map. -/
def offsetOf (train : List Entry) : ℕ := train.length

/-- The `all_indices` dictionary: training entries copied unchanged,
then test entries re-keyed by `idx + offset`. -/
def allIndices (train test : List Entry) : List Entry :=
  dextend (dextend [] train)
    (test.map (fun e => (e.1 + offsetOf train, e.2)))

/-- Body of the reconstruction loop for one `(idx, (i, j))` entry:

    if idx < len(pred_labels):
        pred_map[i, j] = pred_labels[idx] + 1
        gt_map[i, j] = gt_labels[idx] + 1

The bound check compares `idx` only against `pred_labels`.  The
`pred_map` assignment raises `IndexError` if `(i, j)` does not resolve
within `(hh, ww)` (state unchanged); otherwise `pred_map` is written
and then `gt_labels[idx]` is read, raising `IndexError` when
`idx ≥ len(gt_labels)` (with `pred_map` already written). -/
def processEntry (hh ww : ℕ) (gt pred : List ℤ) (s : RState) (e : Entry) :
    Except RState RState :=
  if hp : e.1 < pred.length then
    match npResolve hh e.2.1, npResolve ww e.2.2 with
    | some r, some c =>
      let pm := setCell s.predMap r c (pred.get ⟨e.1, hp⟩ + 1)
      if hg : e.1 < gt.length then
        Except.ok ⟨pm, setCell s.gtMap r c (gt.get ⟨e.1, hg⟩ + 1)⟩
      else Except.error ⟨pm, s.gtMap⟩
    | _, _ => Except.error s
  else Except.ok s

/-- The reconstruction loop `for idx, (i, j) in all_indices.items()`. -/
def runEntries (hh ww : ℕ) (gt pred : List ℤ) :
    List Entry → RState → Except RState RState
  | [], s => Except.ok s
  | e :: rest, s =>
    match processEntry hh ww gt pred s e with
    | Except.ok s' => runEntries hh ww gt pred rest s'
    | Except.error s' => Except.error s'

/-- The map-reconstruction portion of `run_inference`: build the
combined index space and replay every entry on zero-initialised maps of
shape `(hh, ww)`. -/
def reconstruct (hh ww : ℕ) (gt pred : List ℤ) (train test : List Entry) :
    Except RState RState :=
  runEntries hh ww gt pred (allIndices train test)
    ⟨zeroMap hh ww, zeroMap hh ww⟩

/-!
## Metric computations of `HSIEvaluation` (`utils/evaluation.py`)

Labels are class indices, modelled as naturals.  Floating-point metric
values are modelled by rationals; an expression that numpy evaluates to
NaN is modelled by `none`.
-/

/-- `class_num = np.max(y_test) + 1` (maximum of an empty vector is not
taken by the source: `eval` is called on non-empty vectors). -/
def classNum (y : List ℕ) : ℕ := y.foldr max 0 + 1

/-- The label set sklearn's `confusion_matrix` uses when no `labels`
argument is given: the sorted distinct values occurring in either
vector.  For naturals this is a filtered initial range. -/
def obsLabels (y1 y2 : List ℕ) : List ℕ :=
  (List.range ((y1 ++ y2).foldr max 0 + 1)).filter (fun v => v ∈ y1 ++ y2)

/-- Number of samples with true label `a` and predicted label `b`. -/
def pairCount (l : List (ℕ × ℕ)) (a b : ℕ) : ℕ :=
  l.countP (fun p => p.1 == a && p.2 == b)

/-- `sklearn.metrics.confusion_matrix(y1, y2)`: entry `(i, j)` counts
the samples whose true label is the `i`-th observed label and whose
predicted label is the `j`-th observed label. -/
def confusionMatrix (y1 y2 : List ℕ) : List (List ℕ) :=
  (obsLabels y1 y2).map (fun a =>
    (obsLabels y1 y2).map (fun b => pairCount (y1.zip y2) a b))

/-- `sklearn.metrics.accuracy_score`: fraction of agreeing positions. -/
def oaModel (y1 y2 : List ℕ) : ℚ :=
  (((y1.zip y2).countP (fun p => p.1 == p.2) : ℚ)) / ((y1.length : ℚ))

/-- The value `np.nan_to_num` substitutes for `inf` (largest double). -/
def floatMaxA : ℚ := (2 ^ 53 - 1) * 2 ^ 971

/-- `np.nan_to_num(a / b)` for non-negative integer operands: `0/0`
(NaN) becomes 0, `a/0` with `a > 0` (inf) becomes the largest double. -/
def npDivN2N (a b : ℕ) : ℚ :=
  if b = 0 then (if a = 0 then 0 else floatMaxA) else (a : ℚ) / (b : ℚ)

/-- Row sum `np.sum(confusion_matrix, axis=1)[i]`. -/
def rowSumAt (conf : List (List ℕ)) (i : ℕ) : ℕ := (conf.getD i []).sum

/-- Column sum `np.sum(confusion_matrix, axis=0)[j]`. -/
def colSumAt (conf : List (List ℕ)) (j : ℕ) : ℕ :=
  (conf.map (fun row => row.getD j 0)).sum

/-- `AA_andEachClassAccuracy`'s per-class vector:
`np.nan_to_num(np.diag(confusion) / np.sum(confusion, axis=1))`. -/
def eachAcc (conf : List (List ℕ)) : List ℚ :=
  (List.range conf.length).map (fun i =>
    npDivN2N ((conf.getD i []).getD i 0) (rowSumAt conf i))

/-- `np.mean`: NaN (`none`) on an empty vector. -/
def npMean (l : List ℚ) : Option ℚ :=
  if l.length = 0 then none else some (l.sum / (l.length : ℚ))

/-- `AA_andEachClassAccuracy`'s second component, `np.mean(each_acc)`. -/
def averageAcc (conf : List (List ℕ)) : Option ℚ := npMean (eachAcc conf)

/-- Sum of the off-diagonal cells of the `n × n` grid `f`, i.e.
`np.sum(w_mat * g)` for the unweighted-kappa mask `w_mat` (ones with a
zero diagonal). -/
def offDiagSum (f : ℕ → ℕ → ℕ) (n : ℕ) : ℕ :=
  ((List.range n).map (fun i =>
    ((List.range n).map (fun j => if i = j then 0 else f i j)).sum)).sum

/-- `sklearn.metrics.cohen_kappa_score(y1, y2)` with no weights:
`1 - sum(w_mat*confusion) / sum(w_mat*expected)` where
`expected = outer(colsums, rowsums) / N`.  A zero denominator is the
`0/0` NaN case (`none`), which happens exactly when every off-diagonal
product of a column sum and a row sum vanishes (e.g. a single observed
class). -/
def kappaModel (y1 y2 : List ℕ) : Option ℚ :=
  let conf := confusionMatrix y1 y2
  let n := conf.length
  let N := (y1.zip y2).length
  let num := offDiagSum (fun i j => (conf.getD i []).getD j 0) n
  let den := offDiagSum (fun i j => colSumAt conf i * rowSumAt conf j) n
  if den = 0 then none
  else some (1 - (num : ℚ) * (N : ℚ) / (den : ℚ))

/-- The numeric contents written into `self.res` by one `eval` call
(`oa`, `aa`, `kappa`, `each_acc` scaled by 100, and the confusion
matrix; the human-readable classification breakdown string is not
modelled). -/
structure EvalRes where
  oa : ℚ
  aa : Option ℚ
  kappa : Option ℚ
  each : List ℚ
  confusion : List (List ℕ)
deriving DecidableEq, Repr

/-- The values `eval(y_test, y_pred_test)` computes and stores. -/
def computeRes (y1 y2 : List ℕ) : EvalRes :=
  { oa := oaModel y1 y2 * 100
    aa := (averageAcc (confusionMatrix y1 y2)).map (fun q => q * 100)
    kappa := (kappaModel y1 y2).map (fun q => q * 100)
    each := (eachAcc (confusionMatrix y1 y2)).map (fun q => q * 100)
    confusion := confusionMatrix y1 y2 }

/-- The evaluator object: `__init__` sets `self.res = {}` (modelled as
`none`); `eval` overwrites the keys of that same dictionary in place
and returns `self.res` itself, so every report `eval` has ever returned
is an alias of the single `res` field. -/
structure HSIEvaluation where
  res : Option EvalRes
deriving DecidableEq, Repr

/-- `HSIEvaluation(param)`: fresh evaluator with an empty `res` dict. -/
def HSIEvaluation.init : HSIEvaluation := ⟨none⟩

/-- `eval`: recompute every metric and store it in `self.res`. -/
def HSIEvaluation.eval (e : HSIEvaluation) (y1 y2 : List ℕ) :
    HSIEvaluation :=
  let _ := e
  ⟨some (computeRes y1 y2)⟩

/-- The value currently visible through any reference `eval` has
returned: since `eval` returns `self.res`, a previously returned report
reads as whatever `res` holds now. -/
def reportView (e : HSIEvaluation) : Option EvalRes := e.res

/-!
### Basic facts about cells, shapes and the combined dictionary
-/

/-- A map has `hh` rows of `ww` cells each. -/
def Shaped (hh ww : ℕ) (m : List (List ℤ)) : Prop :=
  m.length = hh ∧ ∀ row ∈ m, row.length = ww

lemma shaped_zeroMap (hh ww : ℕ) : Shaped hh ww (zeroMap hh ww) := by
  refine ⟨List.length_replicate .., fun row hrow => ?_⟩
  rw [List.eq_of_mem_replicate hrow]
  exact List.length_replicate ..

lemma getD_row_length {hh ww r : ℕ} {m : List (List ℤ)}
    (hs : Shaped hh ww m) (hr : r < hh) : (m.getD r []).length = ww := by
  rw [List.getD_eq_getElem _ _ (hs.1 ▸ hr)]
  exact hs.2 _ (List.getElem_mem _)

lemma shaped_setCell {hh ww r c : ℕ} {m : List (List ℤ)} (v : ℤ)
    (hs : Shaped hh ww m) (hr : r < hh) :
    Shaped hh ww (setCell m r c v) := by
  refine ⟨by simp [setCell, hs.1], fun row hrow => ?_⟩
  rcases List.mem_or_eq_of_mem_set hrow with hm | he
  · exact hs.2 row hm
  · rw [he, List.length_set]
    exact getD_row_length hs hr

lemma getD_nil_zero (c : ℕ) : ([] : List ℤ).getD c 0 = 0 := by
  simp

lemma getCell_zeroMap (hh ww r c : ℕ) : getCell (zeroMap hh ww) r c = 0 := by
  unfold getCell zeroMap
  rcases lt_or_ge r hh with hr | hr
  · rw [List.getD_eq_getElem (List.replicate hh (List.replicate ww (0 : ℤ))) []
      (by simpa using hr), List.getElem_replicate]
    rcases lt_or_ge c ww with hc | hc
    · rw [List.getD_eq_getElem (List.replicate ww (0 : ℤ)) 0
        (by simpa using hc), List.getElem_replicate]
    · have : (List.replicate ww (0 : ℤ)).getD c 0 = 0 := by
        rw [List.getD_eq_getElem?_getD (List.replicate ww (0 : ℤ)) c 0,
          List.getElem?_eq_none (by simpa using hc)]
        rfl
      exact this
  · have hrow : (List.replicate hh (List.replicate ww (0 : ℤ))).getD r [] = [] := by
      rw [List.getD_eq_getElem?_getD, List.getElem?_eq_none (by simpa using hr)]
      rfl
    rw [hrow]
    exact getD_nil_zero c

lemma getCell_setCell_self {hh ww r c : ℕ} {m : List (List ℤ)} (v : ℤ)
    (hs : Shaped hh ww m) (hr : r < hh) (hc : c < ww) :
    getCell (setCell m r c v) r c = v := by
  have hr' : r < m.length := hs.1 ▸ hr
  have hc' : c < (m.getD r []).length := (getD_row_length hs hr) ▸ hc
  unfold getCell setCell
  have hrow : (m.set r ((m.getD r []).set c v)).getD r [] =
      (m.getD r []).set c v := by
    rw [List.getD_eq_getElem?_getD (m.set r ((m.getD r []).set c v)) r [],
      List.getElem?_set_self hr']
    rfl
  rw [hrow, List.getD_eq_getElem?_getD ((m.getD r []).set c v) c 0,
    List.getElem?_set_self hc']
  rfl

lemma getCell_setCell_ne {r c r' c' : ℕ} {m : List (List ℤ)} (v : ℤ)
    (h : r' ≠ r ∨ c' ≠ c) :
    getCell (setCell m r c v) r' c' = getCell m r' c' := by
  unfold getCell setCell
  by_cases hrr : r = r'
  · subst hrr
    have hcc : c' ≠ c := by tauto
    by_cases hlen : r < m.length
    · have hrow : (m.set r ((m.getD r []).set c v)).getD r [] =
          (m.getD r []).set c v := by
        rw [List.getD_eq_getElem?_getD (m.set r ((m.getD r []).set c v)) r [],
          List.getElem?_set_self hlen]
        rfl
      rw [hrow, List.getD_eq_getElem?_getD ((m.getD r []).set c v) c' 0,
        List.getElem?_set_ne (fun hx => hcc hx.symm),
        ← List.getD_eq_getElem?_getD]
    · have hs1 : m.set r ((m.getD r []).set c v) = m :=
        List.set_eq_of_length_le (by omega)
      rw [hs1]
  · have hrow : (m.set r ((m.getD r []).set c v)).getD r' [] = m.getD r' [] := by
      rw [List.getD_eq_getElem?_getD (m.set r ((m.getD r []).set c v)) r' [],
        List.getElem?_set_ne hrr, ← List.getD_eq_getElem?_getD]
    rw [hrow]

lemma dinsert_eq_append {k : ℕ} {v : Pos} {d : List Entry}
    (h : ∀ e ∈ d, e.1 ≠ k) : dinsert k v d = d ++ [(k, v)] := by
  unfold dinsert
  rw [if_neg]
  simp only [List.any_eq_true, beq_iff_eq, not_exists, not_and]
  exact h

lemma dextend_eq_append (l : List Entry) :
    ∀ d : List Entry, (∀ e ∈ l, ∀ e' ∈ d, e'.1 ≠ e.1) →
    (l.map Prod.fst).Nodup → dextend d l = d ++ l := by
  induction l with
  | nil => intro d _ _; simp [dextend]
  | cons e t ih =>
    intro d hdisj hnd
    rw [List.map_cons] at hnd
    have hnd' := List.nodup_cons.mp hnd
    have h1 : dinsert e.1 e.2 d = d ++ [e] := by
      rw [dinsert_eq_append (fun e' he' => hdisj e (List.mem_cons_self ..) e' he')]
    have h2 : dextend d (e :: t) = dextend (d ++ [e]) t := by
      simp only [dextend, List.foldl_cons, h1]
    rw [h2, ih (d ++ [e]) ?_ hnd'.2]
    · simp
    · intro x hx e' he'
      rcases List.mem_append.mp he' with hd | hsingle
      · exact hdisj x (List.mem_cons_of_mem _ hx) e' hd
      · have : e' = e := by simpa using hsingle
        subst this
        intro hcontra
        exact hnd'.1 (hcontra ▸ List.mem_map_of_mem Prod.fst hx)

lemma allIndices_eq {train test : List Entry}
    (hko : ∀ e ∈ train, e.1 < offsetOf train)
    (htnd : (train.map Prod.fst).Nodup)
    (htsnd : (test.map Prod.fst).Nodup) :
    allIndices train test =
      train ++ test.map (fun e => (e.1 + offsetOf train, e.2)) := by
  unfold allIndices
  have h1 : dextend [] train = train := by
    rw [dextend_eq_append train [] (by simp) htnd]
    simp
  rw [h1, dextend_eq_append]
  · intro x hx e' he'
    obtain ⟨y, hy, rfl⟩ := List.mem_map.mp hx
    have := hko e' he'
    simp only
    omega
  · have : (test.map (fun e => (e.1 + offsetOf train, e.2))).map Prod.fst =
        (test.map Prod.fst).map (fun k => k + offsetOf train) := by
      simp [List.map_map, Function.comp]
    rw [this]
    exact htsnd.map (add_left_injective _)

/-- Replaying a list of entries whose combined indices are in bounds for
both vectors and whose positions are in bounds for the image succeeds,
and a cell is non-background afterwards exactly when some entry touches
it or it was already non-background. -/
lemma runEntries_cover (hh ww : ℕ) (gt pred : List ℤ)
    (hgt : ∀ l ∈ gt, 0 ≤ l) (hpred : ∀ l ∈ pred, 0 ≤ l) :
    ∀ (E : List Entry) (s : RState),
    (∀ e ∈ E, e.1 < gt.length ∧ e.1 < pred.length) →
    (∀ e ∈ E, 0 ≤ e.2.1 ∧ e.2.1 < (hh : ℤ) ∧ 0 ≤ e.2.2 ∧ e.2.2 < (ww : ℤ)) →
    Shaped hh ww s.predMap → Shaped hh ww s.gtMap →
    ∃ s', runEntries hh ww gt pred E s = Except.ok s' ∧
      Shaped hh ww s'.predMap ∧ Shaped hh ww s'.gtMap ∧
      ∀ r c : ℕ,
        (getCell s'.predMap r c ≠ 0 ↔
          ((r : ℤ), (c : ℤ)) ∈ E.map (fun e => e.2) ∨
            getCell s.predMap r c ≠ 0) ∧
        (getCell s'.gtMap r c ≠ 0 ↔
          ((r : ℤ), (c : ℤ)) ∈ E.map (fun e => e.2) ∨
            getCell s.gtMap r c ≠ 0) := by
  intro E
  induction E with
  | nil =>
    intro s _ _ hsp hsg
    exact ⟨s, rfl, hsp, hsg, fun r c => by simp⟩
  | cons e t ih =>
    intro s hidx hpos hsp hsg
    obtain ⟨hgI, hpI⟩ := hidx e (List.mem_cons_self ..)
    obtain ⟨hi0, hih, hj0, hjw⟩ := hpos e (List.mem_cons_self ..)
    have hres1 : npResolve hh e.2.1 = some e.2.1.toNat := by
      unfold npResolve
      rw [if_pos hi0, if_pos hih]
    have hres2 : npResolve ww e.2.2 = some e.2.2.toNat := by
      unfold npResolve
      rw [if_pos hj0, if_pos hjw]
    have hrlt : e.2.1.toNat < hh := by omega
    have hclt : e.2.2.toNat < ww := by omega
    have hpv0 : pred.get ⟨e.1, hpI⟩ + 1 ≠ 0 := by
      have := hpred _ (pred.get_mem e.1 hpI)
      omega
    have hgv0 : gt.get ⟨e.1, hgI⟩ + 1 ≠ 0 := by
      have := hgt _ (gt.get_mem e.1 hgI)
      omega
    have hpe : processEntry hh ww gt pred s e =
        Except.ok ⟨setCell s.predMap e.2.1.toNat e.2.2.toNat
            (pred.get ⟨e.1, hpI⟩ + 1),
          setCell s.gtMap e.2.1.toNat e.2.2.toNat
            (gt.get ⟨e.1, hgI⟩ + 1)⟩ := by
      unfold processEntry
      rw [dif_pos hpI, hres1, hres2]
      simp only
      rw [dif_pos hgI]
    have hrun : runEntries hh ww gt pred (e :: t) s =
        runEntries hh ww gt pred t
          ⟨setCell s.predMap e.2.1.toNat e.2.2.toNat
            (pred.get ⟨e.1, hpI⟩ + 1),
          setCell s.gtMap e.2.1.toNat e.2.2.toNat
            (gt.get ⟨e.1, hgI⟩ + 1)⟩ := by
      simp only [runEntries, hpe]
    obtain ⟨s', hrun', hsp', hsg', hcov⟩ :=
      ih ⟨setCell s.predMap e.2.1.toNat e.2.2.toNat
            (pred.get ⟨e.1, hpI⟩ + 1),
          setCell s.gtMap e.2.1.toNat e.2.2.toNat
            (gt.get ⟨e.1, hgI⟩ + 1)⟩
        (fun x hx => hidx x (List.mem_cons_of_mem _ hx))
        (fun x hx => hpos x (List.mem_cons_of_mem _ hx))
        (shaped_setCell _ hsp hrlt) (shaped_setCell _ hsg hrlt)
    refine ⟨s', by rw [hrun, hrun'], hsp', hsg', fun r c => ?_⟩
    obtain ⟨hcp, hcg⟩ := hcov r c
    have hmem_iff : (((r : ℤ), (c : ℤ)) = e.2) ↔
        (r = e.2.1.toNat ∧ c = e.2.2.toNat) := by
      constructor
      · intro h
        have h1 : (r : ℤ) = e.2.1 := congrArg Prod.fst h
        have h2 : (c : ℤ) = e.2.2 := congrArg Prod.snd h
        omega
      · rintro ⟨rfl, rfl⟩
        have h1 : ((e.2.1.toNat : ℤ)) = e.2.1 := by omega
        have h2 : ((e.2.2.toNat : ℤ)) = e.2.2 := by omega
        rw [h1, h2]
    have hmid : ∀ (m : List (List ℤ)) (v : ℤ), Shaped hh ww m → v ≠ 0 →
        (getCell (setCell m e.2.1.toNat e.2.2.toNat v) r c ≠ 0 ↔
          ((r : ℤ), (c : ℤ)) = e.2 ∨ getCell m r c ≠ 0) := by
      intro m v hm hv
      by_cases hrc : r = e.2.1.toNat ∧ c = e.2.2.toNat
      · obtain ⟨rfl, rfl⟩ := hrc
        rw [getCell_setCell_self v hm hrlt hclt]
        exact iff_of_true hv (Or.inl (hmem_iff.mpr ⟨rfl, rfl⟩))
      · rw [getCell_setCell_ne v (by tauto)]
        have hne : ¬(((r : ℤ), (c : ℤ)) = e.2) := fun h => hrc (hmem_iff.mp h)
        constructor
        · exact fun h => Or.inr h
        · rintro (h | h)
          · exact absurd h hne
          · exact h
    simp only at hcp hcg
    rw [List.map_cons, List.mem_cons]
    constructor
    · rw [hcp, hmid s.predMap _ hsp hpv0]
      constructor
      · rintro (h | h | h)
        · exact Or.inl (Or.inr h)
        · exact Or.inl (Or.inl h)
        · exact Or.inr h
      · rintro ((h | h) | h)
        · exact Or.inr (Or.inl h)
        · exact Or.inl h
        · exact Or.inr (Or.inr h)
    · rw [hcg, hmid s.gtMap _ hsg hgv0]
      constructor
      · rintro (h | h | h)
        · exact Or.inl (Or.inr h)
        · exact Or.inl (Or.inl h)
        · exact Or.inr h
      · rintro ((h | h) | h)
        · exact Or.inr (Or.inl h)
        · exact Or.inl h
        · exact Or.inr (Or.inr h)


/-!
### Claims about the spatial reconstruction
-/

/-- C1: for partition index maps satisfying the data model's invariant
(training keys unique and inside `[0, partition_size)`), the combined
index space has no key collisions: every shifted test key differs from
every training key, the offset is at least the maximum training index
plus one, and building the combined dictionary never overwrites an
entry. -/
theorem c1_combined_index_space_no_collisions (train test : List Entry)
    (hko : ∀ e ∈ train, e.1 < offsetOf train)
    (htnd : (train.map Prod.fst).Nodup)
    (htsnd : (test.map Prod.fst).Nodup) :
    (∀ e ∈ test, ∀ e' ∈ train, e.1 + offsetOf train ≠ e'.1) ∧
    (∀ e ∈ train, e.1 + 1 ≤ offsetOf train) ∧
    (allIndices train test).length = train.length + test.length := by
  refine ⟨fun e _ e' he' => ?_, fun e he => hko e he, ?_⟩
  · have := hko e' he'
    omega
  · rw [allIndices_eq hko htnd htsnd]
    simp

/-- Witness for C1 at the concrete maps of the spec's worked example. -/
theorem c1_combined_index_space_no_collisions_witness :
    (allIndices [(0, ((0 : ℤ), 0)), (1, (0, 1))]
      [(0, ((1 : ℤ), 0))]).length = 2 + 1 :=
  (c1_combined_index_space_no_collisions _ _ (by decide) (by decide)
    (by decide)).2.2

/-- C2: the reconstruction of the spec's worked example produces
`gt_map = [[3,1],[2,0]]` and `pred_map = [[3,2],[2,0]]`. -/
theorem c2_reconstruction_example :
    reconstruct 2 2 [2, 0, 1] [2, 1, 1]
      [(0, ((0 : ℤ), 0)), (1, (0, 1))] [(0, ((1 : ℤ), 0))] =
    Except.ok ⟨[[3, 2], [2, 0]], [[3, 1], [2, 0]]⟩ := rfl

/-- C3: for well-formed partition index maps (the data model's
PartitionIndexMap invariant: unique keys, training keys inside
`[0, partition_size)`) whose label values are non-negative, whose
combined indices are within the bounds of both vectors and whose
positions lie within `(hh, ww)`, the reconstruction succeeds and a cell
of either output map is non-background exactly when its position occurs
in the union of the two index maps. -/
theorem c3_reconstruction_coverage (hh ww : ℕ) (gt pred : List ℤ)
    (train test : List Entry)
    (hko : ∀ e ∈ train, e.1 < offsetOf train)
    (htnd : (train.map Prod.fst).Nodup)
    (htsnd : (test.map Prod.fst).Nodup)
    (hgt : ∀ l ∈ gt, 0 ≤ l) (hpred : ∀ l ∈ pred, 0 ≤ l)
    (hit : ∀ e ∈ train, e.1 < gt.length ∧ e.1 < pred.length)
    (his : ∀ e ∈ test, e.1 + offsetOf train < gt.length ∧
      e.1 + offsetOf train < pred.length)
    (hpos : ∀ e ∈ train ++ test, 0 ≤ e.2.1 ∧ e.2.1 < (hh : ℤ) ∧
      0 ≤ e.2.2 ∧ e.2.2 < (ww : ℤ)) :
    ∃ s, reconstruct hh ww gt pred train test = Except.ok s ∧
      ∀ r c : ℕ,
        (getCell s.predMap r c ≠ 0 ↔
          ((r : ℤ), (c : ℤ)) ∈ (train ++ test).map (fun e => e.2)) ∧
        (getCell s.gtMap r c ≠ 0 ↔
          ((r : ℤ), (c : ℤ)) ∈ (train ++ test).map (fun e => e.2)) := by
  have hAI := allIndices_eq hko htnd htsnd
  have hidx : ∀ e ∈ allIndices train test,
      e.1 < gt.length ∧ e.1 < pred.length := by
    rw [hAI]
    intro e he
    rcases List.mem_append.mp he with h | h
    · exact hit e h
    · obtain ⟨y, hy, rfl⟩ := List.mem_map.mp h
      exact his y hy
  have hposAI : ∀ e ∈ allIndices train test,
      0 ≤ e.2.1 ∧ e.2.1 < (hh : ℤ) ∧ 0 ≤ e.2.2 ∧ e.2.2 < (ww : ℤ) := by
    rw [hAI]
    intro e he
    rcases List.mem_append.mp he with h | h
    · exact hpos e (List.mem_append.mpr (Or.inl h))
    · obtain ⟨y, hy, rfl⟩ := List.mem_map.mp h
      exact hpos y (List.mem_append.mpr (Or.inr hy))
  obtain ⟨s, hrun, _, _, hcov⟩ :=
    runEntries_cover hh ww gt pred hgt hpred (allIndices train test)
      ⟨zeroMap hh ww, zeroMap hh ww⟩ hidx hposAI
      (shaped_zeroMap hh ww) (shaped_zeroMap hh ww)
  have hmapeq : (allIndices train test).map (fun e => e.2) =
      (train ++ test).map (fun e => e.2) := by
    rw [hAI, List.map_append, List.map_append, List.map_map]
    rfl
  refine ⟨s, hrun, fun r c => ?_⟩
  obtain ⟨h1, h2⟩ := hcov r c
  rw [hmapeq] at h1 h2
  constructor
  · rw [h1]
    simp [getCell_zeroMap]
  · rw [h2]
    simp [getCell_zeroMap]

/-- Witness for C3 at the spec's worked example. -/
theorem c3_reconstruction_coverage_witness :
    ∃ s, reconstruct 2 2 [2, 0, 1] [2, 1, 1]
        [(0, ((0 : ℤ), 0)), (1, (0, 1))] [(0, ((1 : ℤ), 0))] =
      Except.ok s ∧
      ∀ r c : ℕ,
        (getCell s.predMap r c ≠ 0 ↔
          ((r : ℤ), (c : ℤ)) ∈
            (([(0, ((0 : ℤ), 0)), (1, (0, 1))] ++ [(0, ((1 : ℤ), 0))]
              : List Entry)).map (fun e => e.2)) ∧
        (getCell s.gtMap r c ≠ 0 ↔
          ((r : ℤ), (c : ℤ)) ∈
            (([(0, ((0 : ℤ), 0)), (1, (0, 1))] ++ [(0, ((1 : ℤ), 0))]
              : List Entry)).map (fun e => e.2)) :=
  c3_reconstruction_coverage 2 2 [2, 0, 1] [2, 1, 1] _ _ (by decide)
    (by decide) (by decide) (by decide) (by decide) (by decide) (by decide)
    (by decide)

/-- C4 as stated is false: with `gt_labels = [5]` and
`pred_labels = [5, 7]`, the entry with combined index `1 ≥
len(true_labels)` passes the check (which compares against
`pred_labels`), writes `pred_map`, and raises on the `gt_labels`
access, instead of neither raising nor writing. -/
theorem c4_counterexample :
    reconstruct 1 1 [5] [5, 7] [] [(1, ((0 : ℤ), 0))] =
      Except.error ⟨[[8]], [[0]]⟩ := rfl

/-- C4 amended: provided the two label vectors have equal length, an
entry whose combined index is at least `len(true_labels)` neither
raises nor writes to either map. -/
theorem c4_bounds_skip (hh ww : ℕ) (gt pred : List ℤ) (s : RState)
    (e : Entry) (hlen : gt.length = pred.length)
    (hidx : gt.length ≤ e.1) :
    processEntry hh ww gt pred s e = Except.ok s := by
  unfold processEntry
  rw [dif_neg (by omega)]

/-- Witness for the amended C4. -/
theorem c4_bounds_skip_witness :
    ([(5 : ℤ)].length = [(5 : ℤ)].length ∧ [(5 : ℤ)].length ≤ 3) ∧
    processEntry 2 2 [(5 : ℤ)] [(5 : ℤ)] ⟨zeroMap 2 2, zeroMap 2 2⟩
      (3, (0, 0)) = Except.ok ⟨zeroMap 2 2, zeroMap 2 2⟩ :=
  ⟨⟨rfl, by decide⟩, c4_bounds_skip 2 2 _ _ _ _ rfl (by decide)⟩

/-- C5: the code does not fail fast on a negative coordinate.  With
`original_shape = (2, 2)` and an index-map entry at position `(-1, 0)`,
numpy's negative-index wrapping silently writes pixel `(1, 0)` and the
reconstruction returns normally, contradicting the spec's demand that a
bounds violation raise rather than wrap. -/
theorem c5_negative_position_wraps :
    reconstruct 2 2 [4] [4] [(0, ((-1 : ℤ), 0))] [] =
      Except.ok ⟨[[0, 0], [5, 0]], [[0, 0], [5, 0]]⟩ := rfl

/-- C10: the bound check compares the combined index only against
`pred_labels`.  An entry with `len(gt_labels) ≤ idx < len(pred_labels)`
at a resolvable position passes the check, writes `pred_map` at its
pixel, and then raises on the `gt_labels` access, leaving `gt_map`
untouched. -/
theorem c10_check_only_against_pred (hh ww : ℕ) (gt pred : List ℤ)
    (s : RState) (e : Entry) (r c : ℕ)
    (hge : gt.length ≤ e.1) (hlt : e.1 < pred.length)
    (hri : npResolve hh e.2.1 = some r)
    (hrj : npResolve ww e.2.2 = some c) :
    processEntry hh ww gt pred s e =
      Except.error ⟨setCell s.predMap r c (pred.get ⟨e.1, hlt⟩ + 1),
        s.gtMap⟩ := by
  unfold processEntry
  rw [dif_pos hlt, hri, hrj]
  simp only
  rw [dif_neg (by omega)]

/-- Witness for C10. -/
theorem c10_check_only_against_pred_witness :
    (([] : List ℤ).length ≤ 0 ∧ 0 < [(7 : ℤ)].length) ∧
    processEntry 1 1 [] [7] ⟨[[0]], [[0]]⟩ (0, ((0 : ℤ), 0)) =
      Except.error ⟨[[8]], [[0]]⟩ :=
  ⟨⟨by decide, by decide⟩,
    c10_check_only_against_pred 1 1 [] [7] ⟨[[0]], [[0]]⟩
      (0, ((0 : ℤ), 0)) 0 0 (by decide) (by decide) (by decide)
      (by decide)⟩


/-!
### Claims about the metric computations
-/

/-- C8: on any square matrix of non-negative counts,
`AA_andEachClassAccuracy` yields `confusion[i,i] / row_sum(i)` for rows
with support, exactly 0 (not NaN) for rows with zero support, and the
unweighted mean of the per-class vector as average accuracy. -/
theorem c8_each_class_accuracy (conf : List (List ℕ))
    (hsq : ∀ row ∈ conf, row.length = conf.length) :
    (∀ i, i < conf.length →
      (rowSumAt conf i = 0 → (eachAcc conf).getD i 0 = 0) ∧
      (rowSumAt conf i ≠ 0 → (eachAcc conf).getD i 0 =
        (((conf.getD i []).getD i 0 : ℚ)) / ((rowSumAt conf i : ℚ)))) ∧
    averageAcc conf = npMean (eachAcc conf) ∧
    (conf ≠ [] → averageAcc conf =
      some ((eachAcc conf).sum / ((conf.length : ℚ)))) := by
  have hlen : (eachAcc conf).length = conf.length := by
    simp [eachAcc]
  refine ⟨fun i hi => ?_, rfl, fun hne => ?_⟩
  · have hget : (eachAcc conf).getD i 0 =
        npDivN2N ((conf.getD i []).getD i 0) (rowSumAt conf i) := by
      rw [List.getD_eq_getElem (eachAcc conf) 0 (by omega)]
      simp [eachAcc]
    constructor
    · intro h0
      have hdiag : (conf.getD i []).getD i 0 = 0 := by
        have hall := List.sum_eq_zero_iff.mp h0
        by_cases hil : i < (conf.getD i []).length
        · rw [List.getD_eq_getElem _ _ hil]
          exact hall _ (List.getElem_mem _)
        · rw [List.getD_eq_getElem?_getD, List.getElem?_eq_none (by omega)]
          rfl
      rw [hget, hdiag, h0]
      simp [npDivN2N]
    · intro h0
      rw [hget]
      simp [npDivN2N, h0]
  · unfold averageAcc npMean
    rw [if_neg (by simp [hlen]; exact hne)]
    rw [hlen]

/-- Witness for C8 on a 2x2 matrix whose second row has zero support. -/
theorem c8_each_class_accuracy_witness :
    (∀ row ∈ [[1, 0], [0, 0]], row.length = ([[1, 0], [0, 0]] : List (List ℕ)).length) ∧
    (rowSumAt [[1, 0], [0, 0]] 1 = 0 →
      (eachAcc [[1, 0], [0, 0]]).getD 1 0 = 0) :=
  ⟨by decide, ((c8_each_class_accuracy [[1, 0], [0, 0]] (by decide)).1 1
    (by decide)).1⟩

/-- C9 as stated is false: the report returned by the first `eval` call
is the evaluator's own `res` dictionary, which the second call
overwrites in place, so the value read through the first returned
reference changes (here its confusion matrix changes from
`[[1,0],[0,1]]` to `[[0,1],[1,0]]`). -/
theorem c9_counterexample :
    reportView (HSIEvaluation.eval HSIEvaluation.init [0, 1] [0, 1]) ≠
      reportView (HSIEvaluation.eval
        (HSIEvaluation.eval HSIEvaluation.init [0, 1] [0, 1])
        [0, 1] [1, 0]) := by
  intro h
  have h2 := congrArg (Option.map EvalRes.confusion) h
  exact absurd h2 (by decide)

/-- C9 amended: each `eval` call freshly computes the metric values of
its own inputs and stores them in the shared `res` dictionary it
returns, so after any call the value visible through every report
`eval` has ever returned is the latest call's result — regardless of
the evaluator's previous state. -/
theorem c9_eval_overwrites_res (e : HSIEvaluation) (y1 y2 : List ℕ) :
    reportView (HSIEvaluation.eval e y1 y2) = some (computeRes y1 y2) := rfl


/-- Sums of maps over an initial range as finite-set sums. -/
lemma list_range_map_sum (f : ℕ → ℕ) (n : ℕ) :
    ((List.range n).map f).sum = ∑ i ∈ Finset.range n, f i := by
  induction n with
  | zero => simp
  | succ k ih =>
    rw [List.range_succ, List.map_append, List.sum_append,
      Finset.sum_range_succ, ih]
    simp

lemma le_foldr_max {l : List ℕ} {v : ℕ} (h : v ∈ l) : v ≤ l.foldr max 0 := by
  induction l with
  | nil => cases h
  | cons a t ih =>
    rw [List.foldr_cons]
    rcases List.mem_cons.mp h with rfl | h
    · exact le_max_left ..
    · exact le_trans (ih h) (le_max_right ..)

lemma foldr_max_le {l : List ℕ} {m : ℕ} (h : ∀ v ∈ l, v ≤ m) :
    l.foldr max 0 ≤ m := by
  induction l with
  | nil => simp
  | cons a t ih =>
    rw [List.foldr_cons]
    exact max_le (h a (List.mem_cons_self ..))
      (ih fun v hv => h v (List.mem_cons_of_mem _ hv))

lemma foldr_max_append (a b : List ℕ) :
    (a ++ b).foldr max 0 = max (a.foldr max 0) (b.foldr max 0) := by
  induction a with
  | nil => simp
  | cons x t ih =>
    rw [List.cons_append, List.foldr_cons, List.foldr_cons, ih, max_assoc]

/-- When every class below `classNum y1` occurs in `y1` and every
predicted value occurs in `y1`, the observed-label list is exactly the
initial range of length `classNum y1`. -/
lemma obsLabels_eq_range {y1 y2 : List ℕ}
    (hcov : ∀ v < classNum y1, v ∈ y1)
    (hsub : ∀ v ∈ y2, v ∈ y1) :
    obsLabels y1 y2 = List.range (classNum y1) := by
  have hmax : (y1 ++ y2).foldr max 0 = y1.foldr max 0 := by
    rw [foldr_max_append]
    exact max_eq_left (foldr_max_le fun v hv => le_foldr_max (hsub v hv))
  unfold obsLabels classNum at *
  rw [hmax, List.filter_eq_self.mpr]
  intro a ha
  have hay : a ∈ y1 := hcov a (by simpa using List.mem_range.mp ha)
  simp [List.mem_append, hay]

/-- Each sample with both components below `C` is counted by exactly
one cell of the `C × C` counting grid. -/
lemma grid_count_sum (C : ℕ) :
    ∀ l : List (ℕ × ℕ), (∀ p ∈ l, p.1 < C ∧ p.2 < C) →
    (∑ i ∈ Finset.range C, ∑ j ∈ Finset.range C,
      l.countP (fun p => p.1 == i && p.2 == j)) = l.length := by
  intro l
  induction l with
  | nil => intro _; simp
  | cons p t ih =>
    intro h
    obtain ⟨h1, h2⟩ := h p (List.mem_cons_self ..)
    have ht := ih fun q hq => h q (List.mem_cons_of_mem _ hq)
    simp only [List.countP_cons]
    rw [Finset.sum_congr rfl fun i _ => Finset.sum_add_distrib,
      Finset.sum_add_distrib, ht]
    have hone : (∑ i ∈ Finset.range C, ∑ j ∈ Finset.range C,
        if (p.1 == i && p.2 == j) = true then 1 else 0) = 1 := by
      have hcell : ∀ i j : ℕ,
          (if (p.1 == i && p.2 == j) = true then (1 : ℕ) else 0) =
          (if p.2 = j then (if p.1 = i then 1 else 0) else 0) := by
        intro i j
        by_cases hi : p.1 = i <;> by_cases hj : p.2 = j <;>
          simp [hi, hj]
      calc (∑ i ∈ Finset.range C, ∑ j ∈ Finset.range C,
              if (p.1 == i && p.2 == j) = true then (1 : ℕ) else 0)
          = ∑ i ∈ Finset.range C, ∑ j ∈ Finset.range C,
              (if p.2 = j then (if p.1 = i then 1 else 0) else 0) :=
            Finset.sum_congr rfl fun i _ => Finset.sum_congr rfl
              fun j _ => hcell i j
        _ = ∑ i ∈ Finset.range C,
              (if p.2 ∈ Finset.range C then (if p.1 = i then 1 else 0)
                else 0) :=
            Finset.sum_congr rfl fun i _ =>
              Finset.sum_ite_eq (Finset.range C) p.2 _
        _ = ∑ i ∈ Finset.range C, (if p.1 = i then 1 else 0) :=
            Finset.sum_congr rfl fun i _ =>
              if_pos (Finset.mem_range.mpr h2)
        _ = if p.1 ∈ Finset.range C then 1 else 0 :=
            Finset.sum_ite_eq (Finset.range C) p.1 (fun _ => 1)
        _ = 1 := if_pos (Finset.mem_range.mpr h1)
    rw [hone]
    simp


/-- C6 as stated is false: with `true_labels = [0, 2]` and
`pred_labels = [0, 2]`, `eval`'s class count is `max + 1 = 3`, but
sklearn's `confusion_matrix` (called with no `labels` argument) is
indexed by the observed labels `{0, 2}` and is only `2 × 2`. -/
theorem c6_counterexample :
    classNum [0, 2] = 3 ∧ (confusionMatrix [0, 2] [0, 2]).length = 2 ∧
    (confusionMatrix [0, 2] [0, 2]).length ≠ classNum [0, 2] := by
  refine ⟨by decide, by decide, by decide⟩

/-- C6 amended: `eval` computes the class count as one plus the maximum
value of `true_labels`; and provided every class below that count
occurs in `true_labels` and every predicted value also occurs in
`true_labels` (so the observed label set is exactly `{0, ..., C-1}`),
the confusion matrix is `C × C` with entry `(i, j)` counting the
samples with true class `i` and predicted class `j`, and its cells sum
to the length of `true_labels`. -/
theorem c6_confusion_matrix (y1 y2 : List ℕ) (hne : y1 ≠ [])
    (hlen : y1.length = y2.length)
    (hcov : ∀ v < classNum y1, v ∈ y1)
    (hsub : ∀ v ∈ y2, v ∈ y1) :
    ((classNum y1 - 1) ∈ y1 ∧ ∀ v ∈ y1, v ≤ classNum y1 - 1) ∧
    (confusionMatrix y1 y2).length = classNum y1 ∧
    (∀ row ∈ confusionMatrix y1 y2, row.length = classNum y1) ∧
    (∀ i j : ℕ, i < classNum y1 → j < classNum y1 →
      ((confusionMatrix y1 y2).getD i []).getD j 0 =
        pairCount (y1.zip y2) i j) ∧
    ((confusionMatrix y1 y2).map List.sum).sum = y1.length := by
  have hC : confusionMatrix y1 y2 =
      (List.range (classNum y1)).map (fun a =>
        (List.range (classNum y1)).map
          (fun b => pairCount (y1.zip y2) a b)) := by
    rw [confusionMatrix, obsLabels_eq_range hcov hsub]
  have hCpos : 0 < classNum y1 := by
    unfold classNum
    omega
  refine ⟨⟨hcov _ (by omega), fun v hv => ?_⟩, ?_, ?_, ?_, ?_⟩
  · have := le_foldr_max hv
    unfold classNum
    omega
  · rw [hC]
    simp
  · rw [hC]
    intro row hrow
    obtain ⟨a, _, rfl⟩ := List.mem_map.mp hrow
    simp
  · intro i j hi hj
    rw [hC]
    rw [List.getD_eq_getElem ((List.range (classNum y1)).map (fun a =>
        (List.range (classNum y1)).map
          (fun b => pairCount (y1.zip y2) a b))) [] (by simpa using hi)]
    rw [List.getElem_map, List.getElem_range]
    rw [List.getD_eq_getElem ((List.range (classNum y1)).map
        (fun b => pairCount (y1.zip y2) i b)) 0 (by simpa using hj)]
    rw [List.getElem_map, List.getElem_range]
  · have hzip : ∀ p ∈ y1.zip y2, p.1 < classNum y1 ∧ p.2 < classNum y1 := by
      intro p hp
      obtain ⟨h1, h2⟩ := List.of_mem_zip hp
      have hb1 := le_foldr_max h1
      have hb2 := le_foldr_max (hsub _ h2)
      unfold classNum
      omega
    rw [hC, List.map_map]
    have hrowsum : ∀ i : ℕ,
        (List.sum ∘ fun a => (List.range (classNum y1)).map
          (fun b => pairCount (y1.zip y2) a b)) i =
        ∑ j ∈ Finset.range (classNum y1), pairCount (y1.zip y2) i j :=
      fun i => list_range_map_sum _ _
    rw [list_range_map_sum (List.sum ∘ fun a =>
        (List.range (classNum y1)).map
          (fun b => pairCount (y1.zip y2) a b)) (classNum y1)]
    rw [Finset.sum_congr rfl fun i _ => hrowsum i]
    have hzl : (y1.zip y2).length = y1.length := by
      rw [List.length_zip]
      omega
    exact (grid_count_sum (classNum y1) (y1.zip y2) hzip).trans hzl

/-- Witness for the amended C6. -/
theorem c6_confusion_matrix_witness :
    (([0, 1] : List ℕ) ≠ [] ∧
      (∀ v < classNum [0, 1], v ∈ ([0, 1] : List ℕ))) ∧
    ((confusionMatrix [0, 1] [1, 0]).map List.sum).sum =
      ([0, 1] : List ℕ).length :=
  ⟨⟨by decide, by decide⟩,
    (c6_confusion_matrix [0, 1] [1, 0] (by decide) (by decide) (by decide)
      (by decide)).2.2.2.2⟩


/-!
### Perfect-agreement facts (for the identical-vectors property)
-/

lemma mem_obsLabels {y1 y2 : List ℕ} {a : ℕ} :
    a ∈ obsLabels y1 y2 ↔ a ∈ y1 ∨ a ∈ y2 := by
  unfold obsLabels
  rw [List.mem_filter]
  constructor
  · rintro ⟨_, h⟩
    simpa [List.mem_append] using h
  · intro h
    have hm : a ∈ y1 ++ y2 := List.mem_append.mpr h
    refine ⟨List.mem_range.mpr ?_, by simpa [List.mem_append] using h⟩
    have := le_foldr_max hm
    omega

lemma obsLabels_nodup (y1 y2 : List ℕ) : (obsLabels y1 y2).Nodup :=
  (List.nodup_range _).filter _

lemma pairCount_zip_self (y : List ℕ) (a b : ℕ) :
    pairCount (y.zip y) a b =
      if a = b then y.countP (fun x => x == a) else 0 := by
  induction y with
  | nil => simp [pairCount]
  | cons x t ih =>
    show pairCount ((x, x) :: t.zip t) a b = _
    unfold pairCount at *
    rw [List.countP_cons, ih, List.countP_cons]
    by_cases hab : a = b
    · subst hab
      simp
    · rw [if_neg hab, if_neg hab]
      have hfalse : (x == a && x == b) = false := by
        by_cases hxa : x = a
        · subst hxa
          simp [hab]
        · simp [hxa]
      simp [hfalse]

lemma countP_zip_self (y : List ℕ) :
    (y.zip y).countP (fun p => p.1 == p.2) = y.length := by
  induction y with
  | nil => simp
  | cons x t ih =>
    show List.countP _ ((x, x) :: t.zip t) = _
    rw [List.countP_cons]
    simp [ih]

lemma sum_map_ite_f {labs : List ℕ} (hnd : labs.Nodup) {x : ℕ}
    (hx : x ∈ labs) (f : ℕ → ℕ) :
    (labs.map (fun b => if x = b then f b else 0)).sum = f x := by
  induction labs with
  | nil => cases hx
  | cons hd t ih =>
    rw [List.map_cons, List.sum_cons]
    have hnd' := List.nodup_cons.mp hnd
    rcases List.mem_cons.mp hx with rfl | hxt
    · rw [if_pos rfl]
      have hz : (t.map (fun b => if x = b then f b else 0)).sum = 0 := by
        apply List.sum_eq_zero
        intro z hz
        obtain ⟨b, hb, rfl⟩ := List.mem_map.mp hz
        rw [if_neg]
        intro he
        exact hnd'.1 (he ▸ hb)
      rw [hz]
      rfl
    · rw [if_neg (fun he : x = hd => hnd'.1 (he ▸ hxt)), Nat.zero_add]
      exact ih hnd'.2 hxt

lemma two_le_length_of_two_mem {l : List ℕ} {a b : ℕ}
    (ha : a ∈ l) (hb : b ∈ l) (hab : a ≠ b) : 2 ≤ l.length := by
  cases l with
  | nil => cases ha
  | cons x t =>
    cases t with
    | nil =>
      simp only [List.mem_singleton] at ha hb
      exact absurd (ha.trans hb.symm) hab
    | cons z u => simp [List.length_cons]

lemma confusionMatrix_length (y1 y2 : List ℕ) :
    (confusionMatrix y1 y2).length = (obsLabels y1 y2).length := by
  simp [confusionMatrix]

lemma conf_self_entry (y : List ℕ) (i j : ℕ)
    (hi : i < (obsLabels y y).length) (hj : j < (obsLabels y y).length) :
    ((confusionMatrix y y).getD i []).getD j 0 =
      if (obsLabels y y).get ⟨i, hi⟩ = (obsLabels y y).get ⟨j, hj⟩
      then y.countP (fun x => x == (obsLabels y y).get ⟨i, hi⟩) else 0 := by
  unfold confusionMatrix
  rw [List.getD_eq_getElem ((obsLabels y y).map (fun a =>
      (obsLabels y y).map (fun b => pairCount (y.zip y) a b))) []
    (by simpa using hi)]
  rw [List.getElem_map]
  rw [List.getD_eq_getElem ((obsLabels y y).map
      (fun b => pairCount (y.zip y) ((obsLabels y y)[i]) b)) 0
    (by simpa using hj)]
  rw [List.getElem_map]
  rw [pairCount_zip_self]
  simp [List.get_eq_getElem]

lemma rowSum_self (y : List ℕ) (i : ℕ)
    (hi : i < (obsLabels y y).length) :
    rowSumAt (confusionMatrix y y) i =
      y.countP (fun x => x == (obsLabels y y).get ⟨i, hi⟩) := by
  unfold rowSumAt confusionMatrix
  rw [List.getD_eq_getElem ((obsLabels y y).map (fun a =>
      (obsLabels y y).map (fun b => pairCount (y.zip y) a b))) []
    (by simpa using hi)]
  rw [List.getElem_map]
  have hrw : (obsLabels y y).map
      (fun b => pairCount (y.zip y) ((obsLabels y y)[i]) b) =
      (obsLabels y y).map (fun b =>
        if (obsLabels y y)[i] = b
        then y.countP (fun x => x == (obsLabels y y)[i]) else 0) :=
    List.map_congr_left fun b _ => pairCount_zip_self y _ b
  rw [hrw, sum_map_ite_f (obsLabels_nodup y y)
    (List.getElem_mem hi) (fun _ => y.countP (fun x => x == (obsLabels y y)[i]))]
  simp [List.get_eq_getElem]

lemma colSum_self (y : List ℕ) (j : ℕ)
    (hj : j < (obsLabels y y).length) :
    colSumAt (confusionMatrix y y) j =
      y.countP (fun x => x == (obsLabels y y).get ⟨j, hj⟩) := by
  unfold colSumAt confusionMatrix
  rw [List.map_map]
  have hrw : ((fun row => row.getD j 0) ∘ fun a =>
      (obsLabels y y).map (fun b => pairCount (y.zip y) a b)) =
      fun a => if (obsLabels y y)[j] = a
        then y.countP (fun x => x == a) else 0 := by
    funext a
    show ((obsLabels y y).map (fun b => pairCount (y.zip y) a b)).getD j 0 = _
    rw [List.getD_eq_getElem ((obsLabels y y).map
        (fun b => pairCount (y.zip y) a b)) 0 (by simpa using hj)]
    rw [List.getElem_map, pairCount_zip_self]
    by_cases h : a = (obsLabels y y)[j]
    · rw [if_pos h, if_pos h.symm, h]
    · rw [if_neg h, if_neg fun he => h he.symm]
  rw [hrw, sum_map_ite_f (obsLabels_nodup y y) (List.getElem_mem hj)
    (fun a => y.countP (fun x => x == a))]
  simp [List.get_eq_getElem]

lemma countP_pos_of_mem {y : List ℕ} {a : ℕ} (ha : a ∈ y) :
    0 < y.countP (fun x => x == a) :=
  List.countP_pos_iff.mpr ⟨a, ha, by simp⟩


lemma eachAcc_getD {conf : List (List ℕ)} {i : ℕ} (hi : i < conf.length) :
    (eachAcc conf).getD i 0 =
      npDivN2N ((conf.getD i []).getD i 0) (rowSumAt conf i) := by
  rw [List.getD_eq_getElem (eachAcc conf) 0 (by simpa [eachAcc] using hi)]
  simp [eachAcc]

/-- With identical vectors the chance-corrected denominator is positive
(at least two observed classes) and the off-diagonal disagreement mass
is zero, so sklearn's kappa is exactly 1. -/
lemma kappa_self (y : List ℕ) (h2 : 2 ≤ (obsLabels y y).length) :
    kappaModel y y = some 1 := by
  have hcl : (confusionMatrix y y).length = (obsLabels y y).length :=
    confusionMatrix_length y y
  have h0 : 0 < (obsLabels y y).length := by omega
  have h1 : 1 < (obsLabels y y).length := by omega
  have hnum : offDiagSum
      (fun i j => ((confusionMatrix y y).getD i []).getD j 0)
      (confusionMatrix y y).length = 0 := by
    unfold offDiagSum
    apply List.sum_eq_zero
    intro z hz
    obtain ⟨i, hi, rfl⟩ := List.mem_map.mp hz
    apply List.sum_eq_zero
    intro w hw
    obtain ⟨j, hj, rfl⟩ := List.mem_map.mp hw
    by_cases hij : i = j
    · rw [if_pos hij]
    · rw [if_neg hij]
      have hi' : i < (obsLabels y y).length := by
        have := List.mem_range.mp hi
        omega
      have hj' : j < (obsLabels y y).length := by
        have := List.mem_range.mp hj
        omega
      show ((confusionMatrix y y).getD i []).getD j 0 = 0
      rw [conf_self_entry y i j hi' hj', if_neg]
      intro he
      rw [List.get_eq_getElem, List.get_eq_getElem] at he
      exact hij ((obsLabels_nodup y y).getElem_inj_iff.mp he)
  have hga : (obsLabels y y).get ⟨0, h0⟩ ∈ y := by
    rcases mem_obsLabels.mp (List.get_mem (obsLabels y y) 0 h0) with h | h <;>
      exact h
  have hgb : (obsLabels y y).get ⟨1, h1⟩ ∈ y := by
    rcases mem_obsLabels.mp (List.get_mem (obsLabels y y) 1 h1) with h | h <;>
      exact h
  have hden0 : colSumAt (confusionMatrix y y) 0 *
      rowSumAt (confusionMatrix y y) 1 ≠ 0 := by
    rw [colSum_self y 0 h0, rowSum_self y 1 h1]
    have hca := countP_pos_of_mem hga
    have hcb := countP_pos_of_mem hgb
    exact Nat.mul_ne_zero (by omega) (by omega)
  have hden : offDiagSum (fun i j => colSumAt (confusionMatrix y y) i *
      rowSumAt (confusionMatrix y y) j) (confusionMatrix y y).length ≠ 0 := by
    have hconv : offDiagSum (fun i j => colSumAt (confusionMatrix y y) i *
        rowSumAt (confusionMatrix y y) j) (confusionMatrix y y).length =
        ∑ i ∈ Finset.range (confusionMatrix y y).length,
          ∑ j ∈ Finset.range (confusionMatrix y y).length,
            (if i = j then 0 else colSumAt (confusionMatrix y y) i *
              rowSumAt (confusionMatrix y y) j) := by
      unfold offDiagSum
      rw [list_range_map_sum]
      exact Finset.sum_congr rfl fun i _ => list_range_map_sum _ _
    rw [hconv]
    intro hzero
    have hm0 : (0 : ℕ) ∈ Finset.range (confusionMatrix y y).length :=
      Finset.mem_range.mpr (by omega)
    have hm1 : (1 : ℕ) ∈ Finset.range (confusionMatrix y y).length :=
      Finset.mem_range.mpr (by omega)
    have hle1 : (if (0 : ℕ) = 1 then 0
        else colSumAt (confusionMatrix y y) 0 *
          rowSumAt (confusionMatrix y y) 1) ≤
        ∑ j ∈ Finset.range (confusionMatrix y y).length,
          (if (0 : ℕ) = j then 0 else colSumAt (confusionMatrix y y) 0 *
            rowSumAt (confusionMatrix y y) j) :=
      @Finset.single_le_sum ℕ ℕ _
        (fun j => if (0 : ℕ) = j then 0 else
          colSumAt (confusionMatrix y y) 0 * rowSumAt (confusionMatrix y y) j)
        (Finset.range (confusionMatrix y y).length)
        (fun j _ => Nat.zero_le _) 1 hm1
    have hle2 : (∑ j ∈ Finset.range (confusionMatrix y y).length,
        (if (0 : ℕ) = j then 0 else colSumAt (confusionMatrix y y) 0 *
          rowSumAt (confusionMatrix y y) j)) ≤
        ∑ i ∈ Finset.range (confusionMatrix y y).length,
          ∑ j ∈ Finset.range (confusionMatrix y y).length,
            (if i = j then 0 else colSumAt (confusionMatrix y y) i *
              rowSumAt (confusionMatrix y y) j) :=
      @Finset.single_le_sum ℕ ℕ _
        (fun i => ∑ j ∈ Finset.range (confusionMatrix y y).length,
          (if i = j then 0 else colSumAt (confusionMatrix y y) i *
            rowSumAt (confusionMatrix y y) j))
        (Finset.range (confusionMatrix y y).length)
        (fun i _ => Nat.zero_le _) 0 hm0
    rw [hzero] at hle2
    have hle := le_trans hle1 hle2
    rw [if_neg (by omega)] at hle
    omega
  show (if offDiagSum (fun i j => colSumAt (confusionMatrix y y) i *
      rowSumAt (confusionMatrix y y) j) (confusionMatrix y y).length = 0
    then none
    else some (1 - ((offDiagSum
        (fun i j => ((confusionMatrix y y).getD i []).getD j 0)
        (confusionMatrix y y).length : ℚ)) * (((y.zip y).length : ℚ)) /
      ((offDiagSum (fun i j => colSumAt (confusionMatrix y y) i *
        rowSumAt (confusionMatrix y y) j)
        (confusionMatrix y y).length : ℚ)))) = some 1
  rw [if_neg hden, hnum]
  norm_num

/-- C7 as stated is false: on the constant identical vectors
`true_labels = pred_labels = [0, 0]` sklearn's kappa is the NaN case
`0/0` (a single observed class makes the chance-agreement denominator
zero), not 100.0. -/
theorem c7_counterexample :
    ([0, 0] : List ℕ) = [0, 0] ∧
    (computeRes [0, 0] [0, 0]).kappa ≠ some 100 := by
  refine ⟨rfl, ?_⟩
  have h : (computeRes [0, 0] [0, 0]).kappa = none := rfl
  rw [h]
  simp

/-- C7 amended: for identical non-empty vectors containing at least two
distinct classes, `eval` reports OA = 100, kappa = 100, and per-class
accuracy 100 for every class with non-zero support.  (With a single
observed class OA and the per-class accuracies are still 100 but kappa
is NaN.) -/
theorem c7_perfect_agreement (y : List ℕ) (hne : y ≠ [])
    (hdist : ∃ a ∈ y, ∃ b ∈ y, a ≠ b) :
    (computeRes y y).oa = 100 ∧
    (computeRes y y).kappa = some 100 ∧
    ∀ i, i < (computeRes y y).each.length →
      rowSumAt (confusionMatrix y y) i ≠ 0 →
      (computeRes y y).each.getD i 0 = 100 := by
  have hll : y.length ≠ 0 := fun h => hne (List.length_eq_zero.mp h)
  have h2 : 2 ≤ (obsLabels y y).length := by
    obtain ⟨a, ha, b, hb, hab⟩ := hdist
    exact two_le_length_of_two_mem (mem_obsLabels.mpr (Or.inl ha))
      (mem_obsLabels.mpr (Or.inl hb)) hab
  refine ⟨?_, ?_, ?_⟩
  · show oaModel y y * 100 = 100
    unfold oaModel
    rw [countP_zip_self, div_self (by exact_mod_cast hll)]
    norm_num
  · show (kappaModel y y).map (fun q => q * 100) = some 100
    rw [kappa_self y h2]
    norm_num
  · intro i hi _
    have hi' : i < (obsLabels y y).length := by
      have hlen : (computeRes y y).each.length =
          (confusionMatrix y y).length := by
        show ((eachAcc (confusionMatrix y y)).map
          (fun q => q * 100)).length = _
        simp [eachAcc]
      rw [hlen, confusionMatrix_length] at hi
      exact hi
    have hic : i < (confusionMatrix y y).length := by
      rw [confusionMatrix_length]
      exact hi'
    have hmap : ((eachAcc (confusionMatrix y y)).map
        (fun q => q * 100)).getD i 0 =
        (eachAcc (confusionMatrix y y)).getD i 0 * 100 := by
      rw [List.getD_eq_getElem ((eachAcc (confusionMatrix y y)).map
          (fun q => q * 100)) 0 (by simpa [eachAcc] using hic),
        List.getElem_map,
        List.getD_eq_getElem (eachAcc (confusionMatrix y y)) 0
          (by simpa [eachAcc] using hic)]
    have hdiag : ((confusionMatrix y y).getD i []).getD i 0 =
        y.countP (fun x => x == (obsLabels y y).get ⟨i, hi'⟩) := by
      rw [conf_self_entry y i i hi' hi', if_pos rfl]
    have hgm : (obsLabels y y).get ⟨i, hi'⟩ ∈ y := by
      rcases mem_obsLabels.mp (List.get_mem (obsLabels y y) i hi') with
        h | h <;> exact h
    have hcnt : y.countP (fun x => x == (obsLabels y y).get ⟨i, hi'⟩) ≠ 0 := by
      have := countP_pos_of_mem hgm
      omega
    show ((eachAcc (confusionMatrix y y)).map (fun q => q * 100)).getD i 0 =
      100
    rw [hmap, eachAcc_getD hic, hdiag, rowSum_self y i hi']
    unfold npDivN2N
    rw [if_neg hcnt, div_self (by exact_mod_cast hcnt)]
    norm_num

/-- Witness for the amended C7. -/
theorem c7_perfect_agreement_witness :
    (([0, 1] : List ℕ) ≠ [] ∧
      ∃ a ∈ ([0, 1] : List ℕ), ∃ b ∈ ([0, 1] : List ℕ), a ≠ b) ∧
    (computeRes [0, 1] [0, 1]).kappa = some 100 :=
  ⟨⟨by decide, by decide⟩,
    (c7_perfect_agreement [0, 1] (by decide) (by decide)).2.1⟩

end Spec2Proof
